import Mathlib

/-
Verification of the climepi core specification: suitability-model execution,
temporal aggregation, ensemble statistics and hierarchical variance
decomposition.  The repository snapshot contains only example notebooks,
documentation and packaging metadata, so the core operations are modelled
from the specification text and verified against the properties it states.
Machine floating point is modelled by exact rational arithmetic, so
"within floating-point tolerance" becomes exact equality over ℚ.
-/

namespace Climepi

/-- Modelled from the spec: the error taxonomy of section 7
(`ConfigurationError`, `DomainError`, `MissingDataError`, `NumericalError`);
the implementing module is absent from the snapshot. -/
inductive ClimepiError where
  | configurationError (varName : String)
  | domainError (varName foundUnits expectedUnits : String)
  | missingDataError (msg : String)
  | numericalError (msg : String)
deriving DecidableEq

/-- Arithmetic mean of `g 0, …, g (n-1)` (division by zero yields 0,
matching `ℚ` conventions; all uses carry `n ≠ 0`). -/
def meanF (n : ℕ) (g : ℕ → ℚ) : ℚ :=
  (∑ i ∈ Finset.range n, g i) / n

/-- Population variance of `g 0, …, g (n-1)`: mean squared deviation
from the mean. -/
def popVarF (n : ℕ) (g : ℕ → ℚ) : ℚ :=
  meanF n (fun i => (g i - meanF n g) ^ 2)

/-- Modelled from the spec: a balanced multi-dimensional sample.  An
xarray-style hyperrectangular dataset with ensemble dimensions of sizes
`s = [n₁, …, n_k]` (outer to inner) is a function from multi-indices to
values; `meanAll` is the grand mean over all cells. -/
def meanAll : List ℕ → (List ℕ → ℚ) → ℚ
  | [], f => f []
  | n :: ns, f => meanF n (fun i => meanAll ns (fun ix => f (i :: ix)))

/-- Modelled from the spec: the total variance of the original sample
(population variance over all cells of the hyperrectangle). -/
def totalVar (s : List ℕ) (f : List ℕ → ℚ) : ℚ :=
  meanAll s (fun ix => (f ix - meanAll s f) ^ 2)

/-- Modelled from the spec (section 4.5, implementing module absent):
the component of the nested variance decomposition attributed to the
dimension at depth `k`.  At the outermost level it is the variance of the
group means (one mean per distinct value of the outer dimension); deeper
components are the within-group components averaged over the outer groups. -/
def component : ℕ → List ℕ → (List ℕ → ℚ) → ℚ
  | _, [], _ => 0
  | 0, n :: ns, f => popVarF n (fun i => meanAll ns (fun ix => f (i :: ix)))
  | k + 1, n :: ns, f => meanF n (fun i => component k ns (fun ix => f (i :: ix)))

/-- Modelled from the spec: `decompose(dataset, dims_ordered)` — the mapping
from each of the `dims_ordered` ensemble dimensions (outer to inner, the
first `dims.length` levels of the shape `s`) to its attributed variance
component. -/
def varDecompose (dims : List String) (s : List ℕ) (f : List ℕ → ℚ) :
    List (String × ℚ) :=
  dims.zip ((List.range dims.length).map (fun k => component k s f))

/-- Sum of the attributed components of a decomposition result. -/
def sumComponents (m : List (String × ℚ)) : ℚ :=
  (m.map Prod.snd).sum

/-- Modelled from the spec: the innermost unexplained residual (attributed
to internal variability) after decomposing the first `j` dimensions — the
within-group variance of the innermost groups, averaged over the groups. -/
def residualVar : ℕ → List ℕ → (List ℕ → ℚ) → ℚ
  | 0, s, f => totalVar s f
  | _ + 1, [], _ => 0
  | j + 1, n :: ns, f => meanF n (fun i => residualVar j ns (fun ix => f (i :: ix)))

lemma meanF_add (n : ℕ) (g h : ℕ → ℚ) :
    meanF n (fun i => g i + h i) = meanF n g + meanF n h := by
  unfold meanF
  rw [Finset.sum_add_distrib, add_div]

lemma meanF_sub (n : ℕ) (g h : ℕ → ℚ) :
    meanF n (fun i => g i - h i) = meanF n g - meanF n h := by
  unfold meanF
  rw [Finset.sum_sub_distrib, sub_div]

lemma meanF_mul (n : ℕ) (c : ℚ) (g : ℕ → ℚ) :
    meanF n (fun i => c * g i) = c * meanF n g := by
  unfold meanF
  rw [← Finset.mul_sum, mul_div_assoc]

lemma meanF_const (n : ℕ) (hn : n ≠ 0) (c : ℚ) :
    meanF n (fun _ => c) = c := by
  unfold meanF
  rw [Finset.sum_const, Finset.card_range, nsmul_eq_mul]
  exact mul_div_cancel_left₀ c (Nat.cast_ne_zero.mpr hn)

lemma meanF_sum (j n : ℕ) (g : ℕ → ℕ → ℚ) :
    ∑ k ∈ Finset.range j, meanF n (g k)
      = meanF n (fun i => ∑ k ∈ Finset.range j, g k i) := by
  unfold meanF
  rw [← Finset.sum_div]
  congr 1
  exact Finset.sum_comm

lemma popVarF_eq (n : ℕ) (hn : n ≠ 0) (g : ℕ → ℚ) :
    popVarF n g = meanF n (fun i => g i ^ 2) - meanF n g ^ 2 := by
  unfold popVarF
  have h1 : (fun i => (g i - meanF n g) ^ 2)
      = fun i => g i ^ 2 + ((-(2 * meanF n g)) * g i + meanF n g ^ 2) := by
    funext i; ring
  rw [h1, meanF_add, meanF_add, meanF_mul, meanF_const n hn]
  ring

lemma meanAll_add (s : List ℕ) (f g : List ℕ → ℚ) :
    meanAll s (fun ix => f ix + g ix) = meanAll s f + meanAll s g := by
  induction s generalizing f g with
  | nil => rfl
  | cons n ns ih =>
    show meanF n _ = meanF n _ + meanF n _
    rw [← meanF_add]
    congr 1
    funext i
    exact ih (fun ix => f (i :: ix)) (fun ix => g (i :: ix))

lemma meanAll_mul (s : List ℕ) (c : ℚ) (f : List ℕ → ℚ) :
    meanAll s (fun ix => c * f ix) = c * meanAll s f := by
  induction s generalizing f with
  | nil => rfl
  | cons n ns ih =>
    show meanF n _ = c * meanF n _
    rw [← meanF_mul]
    congr 1
    funext i
    exact ih (fun ix => f (i :: ix))

lemma meanAll_const (s : List ℕ) (hs : ∀ n ∈ s, n ≠ 0) (c : ℚ) :
    meanAll s (fun _ => c) = c := by
  induction s with
  | nil => rfl
  | cons n ns ih =>
    show meanF n _ = c
    have h1 : (fun i : ℕ => meanAll ns (fun _ => c)) = fun _ : ℕ => c := by
      funext i
      exact ih (fun m hm => hs m (List.mem_cons_of_mem n hm))
    rw [h1]
    exact meanF_const n (hs n (List.mem_cons_self n ns)) c

lemma totalVar_eq (s : List ℕ) (hs : ∀ n ∈ s, n ≠ 0) (f : List ℕ → ℚ) :
    totalVar s f = meanAll s (fun ix => f ix ^ 2) - meanAll s f ^ 2 := by
  unfold totalVar
  have h1 : (fun ix => (f ix - meanAll s f) ^ 2)
      = fun ix => f ix ^ 2 + ((-(2 * meanAll s f)) * f ix + meanAll s f ^ 2) := by
    funext ix; ring
  rw [h1, meanAll_add, meanAll_add, meanAll_mul, meanAll_const s hs]
  ring

/-- Law of total variance for one level of the nested decomposition:
total variance splits exactly into the variance of the group means plus
the mean of the within-group total variances. -/
lemma totalVar_cons (n : ℕ) (ns : List ℕ) (f : List ℕ → ℚ)
    (hn : n ≠ 0) (hns : ∀ m ∈ ns, m ≠ 0) :
    totalVar (n :: ns) f
      = popVarF n (fun i => meanAll ns (fun ix => f (i :: ix)))
        + meanF n (fun i => totalVar ns (fun ix => f (i :: ix))) := by
  have hcons : ∀ m ∈ n :: ns, m ≠ 0 := by
    intro m hm
    rcases List.mem_cons.mp hm with h | h
    · exact h ▸ hn
    · exact hns m h
  rw [totalVar_eq (n :: ns) hcons f, popVarF_eq n hn]
  have h2 : (fun i => totalVar ns (fun ix => f (i :: ix)))
      = fun i => meanAll ns (fun ix => f (i :: ix) ^ 2)
          - meanAll ns (fun ix => f (i :: ix)) ^ 2 := by
    funext i
    exact totalVar_eq ns hns (fun ix => f (i :: ix))
  rw [h2, meanF_sub]
  show meanF n (fun i => meanAll ns fun ix => f (i :: ix) ^ 2)
      - meanF n (fun i => meanAll ns fun ix => f (i :: ix)) ^ 2 = _
  ring

/-- The defining correctness property of the decomposition, proved by
induction on the number of decomposed dimensions: the components of the
first `j` levels plus the residual after `j` levels reconstruct the total
variance exactly. -/
lemma comp_residual_sum (j : ℕ) :
    ∀ (s : List ℕ) (f : List ℕ → ℚ), j ≤ s.length → (∀ n ∈ s, n ≠ 0) →
      (∑ k ∈ Finset.range j, component k s f) + residualVar j s f = totalVar s f := by
  induction j with
  | zero =>
    intro s f _ _
    simp [residualVar]
  | succ j ih =>
    intro s f hj hs
    match s with
    | [] => exact absurd hj (by simp)
    | n :: ns =>
      have hn : n ≠ 0 := hs n (List.mem_cons_self n ns)
      have hns : ∀ m ∈ ns, m ≠ 0 := fun m hm => hs m (List.mem_cons_of_mem n hm)
      have hj2 : j ≤ ns.length := by
        simp only [List.length_cons] at hj
        omega
      rw [Finset.sum_range_succ']
      have hc0 : component 0 (n :: ns) f
          = popVarF n (fun i => meanAll ns (fun ix => f (i :: ix))) := rfl
      have hck : (fun k => component (k + 1) (n :: ns) f)
          = fun k => meanF n (fun i => component k ns (fun ix => f (i :: ix))) := rfl
      have hres : residualVar (j + 1) (n :: ns) f
          = meanF n (fun i => residualVar j ns (fun ix => f (i :: ix))) := rfl
      rw [hc0, hck, hres, meanF_sum j n (fun k i => component k ns (fun ix => f (i :: ix)))]
      have hsum : meanF n (fun i => ∑ k ∈ Finset.range j, component k ns (fun ix => f (i :: ix)))
            + meanF n (fun i => residualVar j ns (fun ix => f (i :: ix)))
          = meanF n (fun i => totalVar ns (fun ix => f (i :: ix))) := by
        rw [← meanF_add]
        congr 1
        funext i
        exact ih ns (fun ix => f (i :: ix)) hj2 hns
      rw [totalVar_cons n ns f hn hns]
      linarith [hsum]

lemma zip_map_snd (dims : List String) :
    ∀ l : List ℚ, dims.length = l.length → (dims.zip l).map Prod.snd = l := by
  induction dims with
  | nil =>
    intro l hl
    have h0 : l = [] := List.eq_nil_of_length_eq_zero (by simpa using hl.symm)
    simp [h0]
  | cons d ds ih =>
    intro l hl
    match l with
    | [] => exact absurd hl (by simp)
    | x :: xs =>
      simp only [List.zip_cons_cons, List.map_cons]
      rw [ih xs (by simpa using hl)]

lemma sum_map_range (g : ℕ → ℚ) (j : ℕ) :
    ((List.range j).map g).sum = ∑ k ∈ Finset.range j, g k := by
  induction j with
  | zero => simp
  | succ j ih =>
    rw [List.range_succ, List.map_append, List.sum_append, Finset.sum_range_succ, ih]
    simp

/-- Claim C1: for every dataset (balanced hyperrectangular sample with
non-empty ensemble dimensions) and every ordered list of ensemble
dimensions, the sum of all components returned by decompose plus the
innermost unexplained residual (internal variability) equals the total
variance of the original sample (exactly, over ℚ). -/
theorem varDecompose_total (dims : List String) (s : List ℕ) (f : List ℕ → ℚ)
    (hdims : dims.length ≤ s.length) (hs : ∀ n ∈ s, n ≠ 0) :
    sumComponents (varDecompose dims s f) + residualVar dims.length s f
      = totalVar s f := by
  unfold sumComponents varDecompose
  rw [zip_map_snd dims _ (by simp),
    sum_map_range (fun k => component k s f) dims.length]
  exact comp_residual_sum dims.length s f hdims hs

/-- Example sample: a 2 × 2 dataset (two ensemble dimensions of size two). -/
def exSample : List ℕ → ℚ
  | [0, 0] => 1
  | [0, 1] => 3
  | [1, 0] => 5
  | [1, 1] => 9
  | _ => 0

theorem varDecompose_total_witness :
    (["model", "realization"].length ≤ ([2, 2] : List ℕ).length
        ∧ ∀ n ∈ ([2, 2] : List ℕ), n ≠ 0)
      ∧ sumComponents (varDecompose ["model", "realization"] [2, 2] exSample)
          + residualVar (["model", "realization"].length) [2, 2] exSample
        = totalVar [2, 2] exSample :=
  ⟨⟨by decide, by decide⟩,
    varDecompose_total ["model", "realization"] [2, 2] exSample (by decide) (by decide)⟩

/-- Modelled from the spec: `fraction=True` mode of decompose — the same
decomposition with each component (and the residual) divided by total
variance; fails with `NumericalError` when total variance is zero. -/
def varDecomposeFraction (dims : List String) (s : List ℕ) (f : List ℕ → ℚ) :
    Except ClimepiError (List (String × ℚ) × ℚ) :=
  if totalVar s f = 0 then
    .error (.numericalError "zero total variance")
  else
    .ok ((varDecompose dims s f).map (fun p => (p.1, p.2 / totalVar s f)),
      residualVar dims.length s f / totalVar s f)

lemma sum_map_div (l : List ℚ) (c : ℚ) :
    (l.map (fun x => x / c)).sum = l.sum / c := by
  induction l with
  | nil => simp
  | cons x xs ih => simp [ih, add_div]

lemma sumComponents_map_div (m : List (String × ℚ)) (c : ℚ) :
    sumComponents (m.map (fun p => (p.1, p.2 / c))) = sumComponents m / c := by
  unfold sumComponents
  rw [List.map_map, ← sum_map_div (m.map Prod.snd) c, List.map_map]
  rfl

/-- Claim C2: when total variance is non-zero, fraction mode returns each
component divided by total variance and the components (with the residual
fraction) sum to 1; when total variance is zero, fraction mode fails with
`NumericalError` rather than producing a value. -/
theorem varDecomposeFraction_spec (dims : List String) (s : List ℕ)
    (f : List ℕ → ℚ) (hdims : dims.length ≤ s.length) (hs : ∀ n ∈ s, n ≠ 0) :
    (totalVar s f = 0 →
      varDecomposeFraction dims s f = .error (.numericalError "zero total variance"))
    ∧ (totalVar s f ≠ 0 →
      varDecomposeFraction dims s f
        = .ok ((varDecompose dims s f).map (fun p => (p.1, p.2 / totalVar s f)),
            residualVar dims.length s f / totalVar s f)
      ∧ sumComponents ((varDecompose dims s f).map (fun p => (p.1, p.2 / totalVar s f)))
          + residualVar dims.length s f / totalVar s f = 1) := by
  constructor
  · intro h0
    simp [varDecomposeFraction, h0]
  · intro h0
    refine ⟨by simp [varDecomposeFraction, h0], ?_⟩
    rw [sumComponents_map_div, div_add_div_same,
      varDecompose_total dims s f hdims hs]
    exact div_self h0

theorem varDecomposeFraction_spec_witness :
    ((["model", "realization"].length ≤ ([2, 2] : List ℕ).length
        ∧ ∀ n ∈ ([2, 2] : List ℕ), n ≠ 0)
      ∧ totalVar [2, 2] exSample ≠ 0)
      ∧ (varDecomposeFraction ["model", "realization"] [2, 2] exSample
          = .ok ((varDecompose ["model", "realization"] [2, 2] exSample).map
              (fun p => (p.1, p.2 / totalVar [2, 2] exSample)),
            residualVar (["model", "realization"].length) [2, 2] exSample
              / totalVar [2, 2] exSample)
        ∧ sumComponents ((varDecompose ["model", "realization"] [2, 2] exSample).map
              (fun p => (p.1, p.2 / totalVar [2, 2] exSample)))
            + residualVar (["model", "realization"].length) [2, 2] exSample
              / totalVar [2, 2] exSample = 1) :=
  ⟨⟨⟨by decide, by decide⟩,
      by norm_num [totalVar, meanAll, meanF, exSample, Finset.sum_range_succ]⟩,
    (varDecomposeFraction_spec ["model", "realization"] [2, 2] exSample
      (by decide) (by decide)).2
      (by norm_num [totalVar, meanAll, meanF, exSample, Finset.sum_range_succ])⟩

/-- Modelled from the spec: `FormulaModel` — an explicit mathematical
expression over a named input variable with expected units and a declared
valid input domain; the implementing module is absent from the snapshot. -/
structure FormulaModel where
  varName : String
  units : String
  domainLo : ℚ
  domainHi : ℚ
  formula : ℚ → ℚ

/-- Modelled from the spec: `evaluate` for a `FormulaModel` — the formula
value inside the declared valid domain, and zero suitability outside it
(domain truncation, not extrapolation and not an error). -/
def FormulaModel.evaluate (m : FormulaModel) (x : ℚ) : ℚ :=
  if m.domainLo ≤ x ∧ x ≤ m.domainHi then m.formula x else 0

/-- Claim C3: for every `FormulaModel`, inputs outside the declared valid
domain evaluate to zero suitability (no error raised), inputs inside the
domain evaluate to the formula's analytic value, and in particular with
domain [0, 40] the inputs -50 and 45 give 0 while 20 gives the formula
value. -/
theorem formulaModel_domain_clamp (m : FormulaModel) :
    (∀ x : ℚ, x < m.domainLo ∨ m.domainHi < x → m.evaluate x = 0)
    ∧ (∀ x : ℚ, m.domainLo ≤ x → x ≤ m.domainHi → m.evaluate x = m.formula x)
    ∧ (m.domainLo = 0 → m.domainHi = 40 →
        m.evaluate (-50) = 0 ∧ m.evaluate 45 = 0 ∧ m.evaluate 20 = m.formula 20) := by
  refine ⟨?_, ?_, ?_⟩
  · intro x hx
    have hout : ¬(m.domainLo ≤ x ∧ x ≤ m.domainHi) := by
      rcases hx with h | h
      · exact fun hc => absurd hc.1 (not_le.mpr h)
      · exact fun hc => absurd hc.2 (not_le.mpr h)
    simp [FormulaModel.evaluate, hout]
  · intro x h1 h2
    simp [FormulaModel.evaluate, h1, h2]
  · intro hlo hhi
    refine ⟨?_, ?_, ?_⟩
    · have hout : ¬(m.domainLo ≤ (-50 : ℚ) ∧ (-50 : ℚ) ≤ m.domainHi) := by
        rw [hlo]
        intro hc
        norm_num at hc
      simp [FormulaModel.evaluate, hout]
    · have hout : ¬(m.domainLo ≤ (45 : ℚ) ∧ (45 : ℚ) ≤ m.domainHi) := by
        rw [hlo, hhi]
        intro hc
        norm_num at hc
      simp [FormulaModel.evaluate, hout]
    · have hin : m.domainLo ≤ (20 : ℚ) ∧ (20 : ℚ) ≤ m.domainHi := by
        rw [hlo, hhi]
        norm_num
      simp [FormulaModel.evaluate, hin]

/-- Example formula model with valid domain [0, 40]. -/
def exFormulaModel : FormulaModel :=
  { varName := "temperature"
    units := "degC"
    domainLo := 0
    domainHi := 40
    formula := fun x => x * (40 - x) / 400 }

theorem formulaModel_domain_clamp_witness :
    exFormulaModel.evaluate (-50) = 0 ∧ exFormulaModel.evaluate 45 = 0
      ∧ exFormulaModel.evaluate 20 = exFormulaModel.formula 20 :=
  (formulaModel_domain_clamp exFormulaModel).2.2 rfl rfl

/-- Modelled from the spec: `LookupTableModel` — an N-dimensional niche
grid with one sorted coordinate list per input variable and tabulated
suitability values at the grid nodes; the implementing module is absent
from the snapshot. -/
structure LookupTableModel where
  inputVars : List (String × String)
  axes : List (List ℚ)
  table : List ℕ → ℚ

/-- Clamp a coordinate into the extent of one grid axis: values below the
first grid point map to it, values above the last grid point map to it. -/
def clamp1 (coords : List ℚ) (x : ℚ) : ℚ :=
  match coords.head?, coords.getLast? with
  | some lo, some hi => max lo (min hi x)
  | _, _ => x

/-- Clamp every coordinate of a point into the grid extent, axis by axis. -/
def clampPoint (axes : List (List ℚ)) (pt : List ℚ) : List ℚ :=
  List.zipWith clamp1 axes pt

/-- Locate the interpolation cell of `x` along one sorted axis: the index
of the lower bracketing grid point and the linear weight toward the upper
one (zero weight at or below the first point). -/
def locate : List ℚ → ℚ → ℕ × ℚ
  | [], _ => (0, 0)
  | [_], _ => (0, 0)
  | a :: b :: rest, x =>
    if x ≤ a then (0, 0)
    else if x ≤ b then (0, (x - a) / (b - a))
    else
      let p := locate (b :: rest) x
      (p.1 + 1, p.2)

/-- Modelled from the spec: multilinear interpolation over the niche grid,
one axis at a time — locate the bracketing cell along the first axis and
blend the interpolants of the two sub-tables over the remaining axes. -/
def interpolate : List (List ℚ) → (List ℕ → ℚ) → List ℚ → ℚ
  | [], table, _ => table []
  | _ :: _, _, [] => 0
  | coords :: axesRest, table, x :: xs =>
    let p := locate coords x
    (1 - p.2) * interpolate axesRest (fun ix => table (p.1 :: ix)) xs
      + p.2 * interpolate axesRest (fun ix => table ((p.1 + 1) :: ix)) xs

/-- Modelled from the spec: `evaluate` for a `LookupTableModel` —
multilinear interpolation at the input point after clamping every
coordinate to the grid extent (nearest-edge policy, never extrapolation). -/
def LookupTableModel.evaluate (m : LookupTableModel) (pt : List ℚ) : ℚ :=
  interpolate m.axes m.table (clampPoint m.axes pt)

lemma clamp1_idem (coords : List ℚ) (x : ℚ) :
    clamp1 coords (clamp1 coords x) = clamp1 coords x := by
  unfold clamp1
  cases hh : coords.head? with
  | none => cases hl : coords.getLast? <;> simp
  | some lo =>
    cases hl : coords.getLast? with
    | none => simp
    | some hi =>
      simp only [min_def, max_def]
      split_ifs <;> linarith

lemma clampPoint_idem (axes : List (List ℚ)) :
    ∀ pt : List ℚ, clampPoint axes (clampPoint axes pt) = clampPoint axes pt := by
  induction axes with
  | nil => intro pt; rfl
  | cons c cs ih =>
    intro pt
    cases pt with
    | nil => rfl
    | cons x xs =>
      show clamp1 c (clamp1 c x) :: clampPoint cs (clampPoint cs xs) = _
      rw [clamp1_idem, ih xs]
      rfl

lemma mem_of_getLast?_eq (l : List ℚ) (a : ℚ) (h : l.getLast? = some a) : a ∈ l := by
  induction l with
  | nil => simp at h
  | cons x xs ih =>
    cases xs with
    | nil =>
      have hx : x = a := by simpa using h
      simp [hx]
    | cons y ys =>
      rw [List.getLast?_cons_cons] at h
      exact List.mem_cons_of_mem x (ih h)

lemma sorted_head_le_getLast (coords : List ℚ) (h : List.Sorted (· ≤ ·) coords)
    (lo hi : ℚ) (hh : coords.head? = some lo) (hl : coords.getLast? = some hi) :
    lo ≤ hi := by
  match coords, hh with
  | c :: cs, hh =>
    have hlo : c = lo := by simpa using hh
    subst hlo
    have hmem : hi ∈ c :: cs := mem_of_getLast?_eq _ _ hl
    rcases List.mem_cons.mp hmem with h1 | h1
    · exact le_of_eq h1.symm
    · exact (List.sorted_cons.mp h).1 hi h1

/-- Claim C4: a `LookupTableModel` evaluates by multilinear interpolation
at the coordinatewise clamped point; the clamped point never leaves the
grid extent, in-extent points are left unchanged, the clamped coordinate is
the nearest in-extent value to the input on every axis, and evaluation at
the clamped point coincides with evaluation at the original point (so
out-of-extent inputs take the suitability of the nearest in-grid point,
never an extrapolated value). -/
theorem lookupTable_nearest_edge (m : LookupTableModel) (pt : List ℚ)
    (hsorted : ∀ coords ∈ m.axes, List.Sorted (· ≤ ·) coords) :
    m.evaluate pt = interpolate m.axes m.table (clampPoint m.axes pt)
    ∧ m.evaluate (clampPoint m.axes pt) = m.evaluate pt
    ∧ (∀ coords ∈ m.axes, ∀ x lo hi : ℚ,
        coords.head? = some lo → coords.getLast? = some hi →
        lo ≤ clamp1 coords x ∧ clamp1 coords x ≤ hi
        ∧ (lo ≤ x → x ≤ hi → clamp1 coords x = x)
        ∧ ∀ y : ℚ, lo ≤ y → y ≤ hi → |x - clamp1 coords x| ≤ |x - y|) := by
  refine ⟨rfl, ?_, ?_⟩
  · show interpolate m.axes m.table (clampPoint m.axes (clampPoint m.axes pt)) = _
    rw [clampPoint_idem]
    rfl
  · intro coords hmem x lo hi hh hl
    have hlohi : lo ≤ hi := sorted_head_le_getLast coords (hsorted coords hmem) lo hi hh hl
    have hc : clamp1 coords x = max lo (min hi x) := by
      unfold clamp1
      rw [hh, hl]
    rw [hc]
    refine ⟨le_max_left lo _, max_le hlohi (min_le_left hi x), ?_, ?_⟩
    · intro h1 h2
      rw [min_eq_right h2, max_eq_right h1]
    · intro y hy1 hy2
      rcases lt_or_le x lo with hxlo | hxlo
      · have h1 : min hi x = x := min_eq_right (le_trans hxlo.le hlohi)
        have h2 : max lo x = lo := max_eq_left hxlo.le
        rw [h1, h2, abs_of_nonpos (by linarith), abs_of_nonpos (by linarith)]
        linarith
      · rcases le_or_lt x hi with hxhi | hxhi
        · rw [min_eq_right hxhi, max_eq_right hxlo, sub_self, abs_zero]
          exact abs_nonneg _
        · rw [min_eq_left hxhi.le, max_eq_right hlohi,
            abs_of_nonneg (by linarith), abs_of_nonneg (by linarith)]
          linarith

/-- Example lookup-table model: one axis with grid points 0 and 10. -/
def exLookupModel : LookupTableModel :=
  { inputVars := [("temperature", "degC")]
    axes := [[0, 10]]
    table := fun ix => match ix with
      | [0] => 0
      | [1] => 1
      | _ => 0 }

theorem lookupTable_nearest_edge_witness :
    (∀ coords ∈ exLookupModel.axes, List.Sorted (· ≤ ·) coords)
      ∧ exLookupModel.evaluate (clampPoint exLookupModel.axes [25])
        = exLookupModel.evaluate [25] :=
  ⟨by decide, (lookupTable_nearest_edge exLookupModel [25] (by decide)).2.1⟩

/-- Modelled from the spec: one timestep of a suitability dataset, carrying
its calendar year and month and the suitability value at that timestep
(a boolean output is encoded as 0 or 1). -/
structure Timestep where
  year : Int
  month : ℕ
  value : ℚ

/-- The suitability values observed in a given calendar month of a given
year. -/
def monthValues (ts : List Timestep) (y : Int) (m : ℕ) : List ℚ :=
  (ts.filter (fun t => t.year == y && t.month == m)).map Timestep.value

/-- Whether the given calendar month of the given year contains any
observed timestep at all. -/
def monthObserved (ts : List Timestep) (y : Int) (m : ℕ) : Bool :=
  ts.any (fun t => t.year == y && t.month == m)

/-- Whether the given calendar month of the given year contains at least
one timestep whose suitability value is truthy (strictly positive). -/
def monthSuitableB (ts : List Timestep) (y : Int) (m : ℕ) : Bool :=
  (monthValues ts y m).any (fun v => decide (0 < v))

/-- The twelve calendar months. -/
def calendarMonths : List ℕ :=
  (List.range 12).map (· + 1)

/-- Modelled from the spec: `months_suitable` — for each calendar year, the
number of calendar months containing at least one timestep with truthy
suitability; the implementing module is absent from the snapshot. -/
def monthsSuitable (ts : List Timestep) (y : Int) : ℕ :=
  (calendarMonths.filter (fun m => monthSuitableB ts y m)).length

/-- Claim C6: `months_suitable` counts, per calendar year, exactly the
calendar months containing at least one timestep with truthy suitability
(value strictly greater than zero); a month with no observed timesteps is
never counted, and the yearly count never exceeds the number of months
actually observed in that year (no scaling or extrapolation for years with
fewer than twelve represented months). -/
theorem monthsSuitable_spec (ts : List Timestep) (y : Int) :
    monthsSuitable ts y
      = (calendarMonths.filter (fun m => monthSuitableB ts y m)).length
    ∧ (∀ m : ℕ, monthSuitableB ts y m = true
        ↔ ∃ t ∈ ts, t.year = y ∧ t.month = m ∧ 0 < t.value)
    ∧ (∀ m : ℕ, monthObserved ts y m = false → monthSuitableB ts y m = false)
    ∧ monthsSuitable ts y
        ≤ (calendarMonths.filter (fun m => monthObserved ts y m)).length := by
  have hiff : ∀ m : ℕ, monthSuitableB ts y m = true
      ↔ ∃ t ∈ ts, t.year = y ∧ t.month = m ∧ 0 < t.value := by
    intro m
    simp only [monthSuitableB, monthValues, List.any_eq_true, List.mem_map,
      List.mem_filter, Bool.and_eq_true, beq_iff_eq, decide_eq_true_eq]
    constructor
    · rintro ⟨v, ⟨t, ⟨ht, hy, hm⟩, hv⟩, hpos⟩
      exact ⟨t, ht, hy, hm, hv ▸ hpos⟩
    · rintro ⟨t, ht, hy, hm, hpos⟩
      exact ⟨t.value, ⟨t, ⟨ht, hy, hm⟩, rfl⟩, hpos⟩
  have hobs : ∀ m : ℕ, monthObserved ts y m = false → monthSuitableB ts y m = false := by
    intro m hm
    by_contra hsb
    have hsb2 : monthSuitableB ts y m = true := by
      cases h : monthSuitableB ts y m with
      | false => exact absurd h hsb
      | true => rfl
    obtain ⟨t, ht, hy, hmo, _⟩ := (hiff m).mp hsb2
    have : monthObserved ts y m = true := by
      simp only [monthObserved, List.any_eq_true, Bool.and_eq_true, beq_iff_eq]
      exact ⟨t, ht, hy, hmo⟩
    rw [this] at hm
    simp at hm
  refine ⟨rfl, hiff, hobs, ?_⟩
  unfold monthsSuitable
  rw [← List.countP_eq_length_filter, ← List.countP_eq_length_filter]
  refine List.countP_mono_left ?_
  intro m _ hms
  by_contra hno
  have hof : monthObserved ts y m = false := by
    cases h : monthObserved ts y m with
    | false => rfl
    | true => exact absurd h hno
  rw [hobs m hof] at hms
  exact Bool.false_ne_true hms

/-- Example suitability time series: year 2000 with two timesteps in month
one (one suitable), one unsuitable timestep in month two, and no other
observed months. -/
def exTimesteps : List Timestep :=
  [⟨2000, 1, 1⟩, ⟨2000, 1, 0⟩, ⟨2000, 2, 0⟩]

theorem monthsSuitable_spec_witness :
    monthObserved exTimesteps 2000 3 = false
      ∧ monthSuitableB exTimesteps 2000 3 = false :=
  ⟨by decide, (monthsSuitable_spec exTimesteps 2000).2.2.1 3 (by decide)⟩

/-- Modelled from the spec: one variable of a climate ensemble dataset,
with its declared units and values. -/
structure DataVar where
  name : String
  units : String
  values : List ℚ
deriving DecidableEq

/-- Modelled from the spec: a climate ensemble dataset as a collection of
named variables. -/
structure ClimateDataset where
  vars : List DataVar
deriving DecidableEq

/-- Look up a variable of the dataset by name. -/
def findVar (ds : ClimateDataset) (name : String) : Option DataVar :=
  ds.vars.find? (fun v => v.name == name)

/-- Modelled from the spec: the polymorphic suitability model — a tagged
variant over the formula and lookup-table forms. -/
inductive SuitabilityModel where
  | formula (fm : FormulaModel)
  | lookup (lm : LookupTableModel)

/-- The required input variables of a suitability model, with their
expected units. -/
def SuitabilityModel.inputs : SuitabilityModel → List (String × String)
  | .formula fm => [(fm.varName, fm.units)]
  | .lookup lm => lm.inputVars

/-- Whether a required input is bound to a dataset variable whose declared
units differ from the expected units. -/
def unitsBad (ds : ClimateDataset) (p : String × String) : Bool :=
  match findVar ds p.1 with
  | some v => v.units != p.2
  | none => false

/-- Elementwise evaluation of a suitability model over the value lists of
its bound input variables. -/
def evalOnValues : SuitabilityModel → List (List ℚ) → List ℚ
  | .formula fm, [vals] => vals.map fm.evaluate
  | .lookup lm, valss => valss.transpose.map lm.evaluate
  | .formula _, _ => []

/-- Modelled from the spec: `run(dataset, model)` — fails with
`ConfigurationError` when a required input variable is absent from the
dataset, fails with `DomainError` when a bound variable's declared units
differ from the expected units (exact match, no conversion), and otherwise
evaluates the model elementwise; the implementing module is absent from
the snapshot. -/
def runEpiModel (ds : ClimateDataset) (m : SuitabilityModel) :
    Except ClimepiError (List ℚ) :=
  match m.inputs.find? (fun p => (findVar ds p.1).isNone) with
  | some p => .error (.configurationError p.1)
  | none =>
    match m.inputs.find? (unitsBad ds) with
    | some p =>
      .error (.domainError p.1 (((findVar ds p.1).map DataVar.units).getD "") p.2)
    | none =>
      .ok (evalOnValues m (m.inputs.map (fun p => ((findVar ds p.1).map DataVar.values).getD [])))

/-- Claim C7: model evaluation fails with `ConfigurationError` naming a
missing required input variable whenever one is absent from the dataset;
when all inputs are present but some bound variable's declared units differ
from the model's expected units, it fails with `DomainError` carrying the
mismatched units; and when every input is present with exactly matching
units, it succeeds. -/
theorem runEpiModel_errors (ds : ClimateDataset) (m : SuitabilityModel) :
    ((∃ p ∈ m.inputs, findVar ds p.1 = none) →
      ∃ n u, (n, u) ∈ m.inputs ∧ findVar ds n = none
        ∧ runEpiModel ds m = .error (.configurationError n))
    ∧ ((∀ p ∈ m.inputs, (findVar ds p.1).isSome) →
      (∃ p ∈ m.inputs, ∃ v, findVar ds p.1 = some v ∧ v.units ≠ p.2) →
      ∃ n u fu, (n, u) ∈ m.inputs ∧ fu ≠ u
        ∧ runEpiModel ds m = .error (.domainError n fu u))
    ∧ ((∀ p ∈ m.inputs, ∃ v, findVar ds p.1 = some v ∧ v.units = p.2) →
      ∃ out, runEpiModel ds m = .ok out) := by
  refine ⟨?_, ?_, ?_⟩
  · rintro ⟨p, hp, hfp⟩
    have hsome : (m.inputs.find? (fun q => (findVar ds q.1).isNone)).isSome := by
      rw [List.find?_isSome]
      exact ⟨p, hp, by simp [hfp]⟩
    obtain ⟨q, hq⟩ := Option.isSome_iff_exists.mp hsome
    have hqmem : q ∈ m.inputs := List.mem_of_find?_eq_some hq
    have hqnone : findVar ds q.1 = none := by
      have := List.find?_some hq
      simpa [Option.isNone_iff_eq_none] using this
    refine ⟨q.1, q.2, hqmem, hqnone, ?_⟩
    simp [runEpiModel, hq]
  · intro hall
    rintro ⟨p, hp, v, hv, hvu⟩
    have h1 : m.inputs.find? (fun q => (findVar ds q.1).isNone) = none := by
      rw [List.find?_eq_none]
      intro q hq
      have := hall q hq
      simp [Option.isNone_iff_eq_none]
      exact Option.isSome_iff_ne_none.mp this
    have hsome : (m.inputs.find? (unitsBad ds)).isSome := by
      rw [List.find?_isSome]
      refine ⟨p, hp, ?_⟩
      simp [unitsBad, hv]
      exact hvu
    obtain ⟨q, hq⟩ := Option.isSome_iff_exists.mp hsome
    have hqmem : q ∈ m.inputs := List.mem_of_find?_eq_some hq
    have hqbad : unitsBad ds q = true := List.find?_some hq
    obtain ⟨w, hw, hwu⟩ : ∃ w, findVar ds q.1 = some w ∧ w.units ≠ q.2 := by
      unfold unitsBad at hqbad
      cases hfw : findVar ds q.1 with
      | none => rw [hfw] at hqbad; simp at hqbad
      | some w =>
        rw [hfw] at hqbad
        exact ⟨w, rfl, by simpa using hqbad⟩
    refine ⟨q.1, q.2, w.units, hqmem, hwu, ?_⟩
    simp [runEpiModel, h1, hq, hw]
  · intro hgood
    have h1 : m.inputs.find? (fun q => (findVar ds q.1).isNone) = none := by
      rw [List.find?_eq_none]
      intro q hq
      obtain ⟨v, hv, _⟩ := hgood q hq
      simp [hv]
    have h2 : m.inputs.find? (unitsBad ds) = none := by
      rw [List.find?_eq_none]
      intro q hq
      obtain ⟨v, hv, hvu⟩ := hgood q hq
      simp [unitsBad, hv, hvu]
    simp only [runEpiModel, h1, h2]
    exact ⟨_, rfl⟩

/-- Example dataset containing only a precipitation variable. -/
def exDataset : ClimateDataset :=
  ⟨[⟨"precipitation", "mm", [1, 2]⟩]⟩

/-- Example suitability model requiring a temperature variable in degC. -/
def exEpiModel : SuitabilityModel :=
  .formula exFormulaModel

theorem runEpiModel_errors_witness :
    ∃ n u, (n, u) ∈ exEpiModel.inputs ∧ findVar exDataset n = none
      ∧ runEpiModel exDataset exEpiModel = .error (.configurationError n) :=
  (runEpiModel_errors exDataset exEpiModel).1
    ⟨("temperature", "degC"), by decide, by decide⟩

/-- Minimum of a list of values, combined pairwise (none for an empty
list). -/
def listMin : List ℚ → Option ℚ
  | [] => none
  | x :: xs =>
    match listMin xs with
    | none => some x
    | some y => some (min x y)

/-- Maximum of a list of values, combined pairwise (none for an empty
list). -/
def listMax : List ℚ → Option ℚ
  | [] => none
  | x :: xs =>
    match listMax xs with
    | none => some x
    | some y => some (max x y)

/-- Modelled from the spec: the reduction applied for one requested
statistic label over the collapsed ensemble sample of one cell. -/
def statOf (stat : String) (xs : List ℚ) : ℚ :=
  if stat = "mean" then xs.sum / xs.length
  else if stat = "min" then (listMin xs).getD 0
  else if stat = "max" then (listMax xs).getD 0
  else 0

/-- Modelled from the spec: `ensemble_stats(dataset, ensemble_dims, stats)`
on the collapsed representation — each non-ensemble cell holds its ensemble
sample, and the result adds a statistic axis with one labelled entry per
requested reduction; the implementing module is absent from the snapshot. -/
def ensembleStats (cells : List (List ℚ)) (stats : List String) :
    List (String × List ℚ) :=
  stats.map (fun s => (s, cells.map (statOf s)))

/-- Select one entry of the statistic axis by label. -/
def selStat (res : List (String × List ℚ)) (s : String) : Option (List ℚ) :=
  List.lookup s res

/-- Modelled from the spec: `ensemble_mean(dataset, ensemble_dims)` — the
convenience mean-only reduction, computed directly per cell. -/
def ensembleMean (cells : List (List ℚ)) : List ℚ :=
  cells.map (fun xs => xs.sum / xs.length)

/-- Claim C8: selecting the mean entry of the statistic axis produced by
`ensemble_stats` with the mean-only reduction gives exactly the result of
`ensemble_mean`, cell for cell. -/
theorem ensembleMean_alias (cells : List (List ℚ)) :
    selStat (ensembleStats cells ["mean"]) "mean" = some (ensembleMean cells) := by
  simp [selStat, ensembleStats, ensembleMean, List.lookup, statOf]

/-- Modelled from the spec: the default ensemble dimensions reduced over
when `ensemble_stats` is called with no explicit dimensions. -/
def defaultEnsembleDims : List String := ["realization"]

/-- Modelled from the spec: the default statistic set of a zero-argument
`ensemble_stats` call. -/
def defaultStats : List String := ["mean", "min", "max"]

/-- Modelled from the spec: a dataset ready for ensemble reduction — the
names of its ensemble dimensions together with the ensemble sample of every
non-ensemble cell. -/
structure StatDataset where
  ensembleDims : List String
  cells : List (List ℚ)

/-- Modelled from the spec: the public `ensemble_stats` entry point with
optional arguments — absent arguments fall back to the default ensemble
dimensions and default statistic set; reduction requires the requested
dimensions to be present in the dataset. -/
def ensembleStatsRun (ds : StatDataset) (dimsOpt : Option (List String))
    (statsOpt : Option (List String)) :
    Except ClimepiError (List (String × List ℚ)) :=
  let dims := dimsOpt.getD defaultEnsembleDims
  if dims.all (fun d => ds.ensembleDims.contains d) then
    .ok (ensembleStats ds.cells (statsOpt.getD defaultStats))
  else
    .error (.configurationError "ensemble dimension not present")

/-- Claim C10: with the default ensemble dimension present in the dataset,
a zero-argument `ensemble_stats` call succeeds, reducing with the default
statistic set, which includes mean, min and max, each selectable by label
on the statistic axis and equal to its per-cell reduction. -/
theorem ensembleStats_default (ds : StatDataset)
    (h : "realization" ∈ ds.ensembleDims) :
    ∃ res, ensembleStatsRun ds none none = .ok res
      ∧ res = ensembleStats ds.cells defaultStats
      ∧ "mean" ∈ defaultStats ∧ "min" ∈ defaultStats ∧ "max" ∈ defaultStats
      ∧ selStat res "mean" = some (ds.cells.map (statOf "mean"))
      ∧ selStat res "min" = some (ds.cells.map (statOf "min"))
      ∧ selStat res "max" = some (ds.cells.map (statOf "max")) := by
  refine ⟨ensembleStats ds.cells defaultStats, ?_, rfl, by decide, by decide, by decide,
    ?_, ?_, ?_⟩
  · have hc : ds.ensembleDims.contains "realization" = true := by
      rw [List.contains_iff_exists_mem_beq]
      exact ⟨"realization", h, by decide⟩
    simp only [ensembleStatsRun, defaultEnsembleDims, Option.getD]
    simp [hc, h]
  · simp [selStat, ensembleStats, defaultStats, List.lookup]
  · simp [selStat, ensembleStats, defaultStats, List.lookup]
  · simp [selStat, ensembleStats, defaultStats, List.lookup]

/-- Example dataset for ensemble reduction: one realization dimension and
two cells. -/
def exStatDataset : StatDataset :=
  ⟨["realization"], [[1, 3], [2, 6]]⟩

theorem ensembleStats_default_witness :
    "realization" ∈ exStatDataset.ensembleDims
      ∧ ∃ res, ensembleStatsRun exStatDataset none none = .ok res
        ∧ res = ensembleStats exStatDataset.cells defaultStats
        ∧ "mean" ∈ defaultStats ∧ "min" ∈ defaultStats ∧ "max" ∈ defaultStats
        ∧ selStat res "mean" = some (exStatDataset.cells.map (statOf "mean"))
        ∧ selStat res "min" = some (exStatDataset.cells.map (statOf "min"))
        ∧ selStat res "max" = some (exStatDataset.cells.map (statOf "max")) :=
  ⟨by decide, ensembleStats_default exStatDataset (by decide)⟩

/-- Modelled from the spec: the reduction of one output cell with an
explicit skip-missing policy — missing members are excluded from the
sample, and a cell with no valid members fails with `MissingDataError`
instead of producing a placeholder value. -/
def cellStat (stat : String) (xs : List (Option ℚ)) : Except ClimepiError ℚ :=
  let v := xs.filterMap id
  if v.isEmpty then .error (.missingDataError "no valid ensemble members")
  else .ok (statOf stat v)

/-- Sequence fallible per-cell reductions: the first failing cell aborts
the whole reduction, so no partial result is ever produced. -/
def mapExcept {α β : Type} (g : α → Except ClimepiError β) :
    List α → Except ClimepiError (List β)
  | [] => .ok []
  | x :: xs =>
    match g x with
    | .error e => .error e
    | .ok y =>
      match mapExcept g xs with
      | .error e => .error e
      | .ok ys => .ok (y :: ys)

/-- Modelled from the spec: `ensemble_stats` over cells that may contain
missing members, propagating per-cell `MissingDataError` to the caller. -/
def ensembleStatsChecked (stat : String) (cells : List (List (Option ℚ))) :
    Except ClimepiError (List ℚ) :=
  mapExcept (cellStat stat) cells

/-- Claim C9: missing members are excluded from every cell's sample; a cell
whose sample has no valid members fails with `MissingDataError` instead of
producing a placeholder; any such cell makes the whole reduction fail, and
when every cell has a valid member the reduction succeeds with each cell
reduced over exactly its valid members. -/
theorem ensembleStats_missing (stat : String) (cells : List (List (Option ℚ))) :
    (∀ xs : List (Option ℚ),
      (xs.filterMap id = [] →
        cellStat stat xs = .error (.missingDataError "no valid ensemble members"))
      ∧ (xs.filterMap id ≠ [] →
        cellStat stat xs = .ok (statOf stat (xs.filterMap id))))
    ∧ ((∃ xs ∈ cells, xs.filterMap id = []) →
        ensembleStatsChecked stat cells
          = .error (.missingDataError "no valid ensemble members"))
    ∧ ((∀ xs ∈ cells, xs.filterMap id ≠ []) →
        ensembleStatsChecked stat cells
          = .ok (cells.map (fun xs => statOf stat (xs.filterMap id)))) := by
  have hcell : ∀ xs : List (Option ℚ),
      (xs.filterMap id = [] →
        cellStat stat xs = .error (.missingDataError "no valid ensemble members"))
      ∧ (xs.filterMap id ≠ [] →
        cellStat stat xs = .ok (statOf stat (xs.filterMap id))) := by
    intro xs
    constructor
    · intro h
      simp [cellStat, h]
    · intro h
      have hne : (xs.filterMap id).isEmpty = false := by
        rw [List.isEmpty_eq_false]
        exact h
      simp [cellStat, hne]
  refine ⟨hcell, ?_, ?_⟩
  · intro hbad
    induction cells with
    | nil => obtain ⟨xs, hmem, _⟩ := hbad; simp at hmem
    | cons c cs ih =>
      by_cases hc : c.filterMap id = []
      · have h1 := (hcell c).1 hc
        simp [ensembleStatsChecked, mapExcept, h1]
      · obtain ⟨xs, hmem, hxs⟩ := hbad
        have hxcs : xs ∈ cs := by
          rcases List.mem_cons.mp hmem with h | h
          · exact absurd (h ▸ hxs) hc
          · exact h
        have h2 := (hcell c).2 hc
        have h3 := ih ⟨xs, hxcs, hxs⟩
        simp only [ensembleStatsChecked, mapExcept, h2] at h3 ⊢
        rw [h3]
  · intro hgood
    induction cells with
    | nil => rfl
    | cons c cs ih =>
      have hc := hgood c (List.mem_cons_self c cs)
      have h2 := (hcell c).2 hc
      have h3 := ih (fun xs hxs => hgood xs (List.mem_cons_of_mem c hxs))
      simp only [ensembleStatsChecked, mapExcept, h2] at h3 ⊢
      rw [h3]
      simp

theorem ensembleStats_missing_witness :
    (∀ xs ∈ ([[some 1, none], [some 2, some 4]] : List (List (Option ℚ))),
        xs.filterMap id ≠ [])
      ∧ ensembleStatsChecked "mean" [[some 1, none], [some 2, some 4]]
        = .ok (([[some 1, none], [some 2, some 4]] : List (List (Option ℚ))).map
            (fun xs => statOf "mean" (xs.filterMap id))) :=
  ⟨by decide,
    (ensembleStats_missing "mean" [[some 1, none], [some 2, some 4]]).2.2 (by decide)⟩

/-- Modelled from the spec: the execution engine applied to one partition —
elementwise application of the model response function with no
cross-element dependency. -/
def runModel (f : ℚ → ℚ) (cells : List ℚ) : List ℚ :=
  cells.map f

/-- Partial sum and member count of one partition, the accumulator state
of the chunked mean reduction. -/
def sumCount (xs : List ℚ) : ℚ × ℕ :=
  (xs.sum, xs.length)

/-- Combine two partial (sum, count) accumulators. -/
def combineSC (a b : ℚ × ℕ) : ℚ × ℕ :=
  (a.1 + b.1, a.2 + b.2)

/-- Accumulate the per-chunk (sum, count) pairs of a partitioned dataset. -/
def accumSC (chunks : List (List ℚ)) : ℚ × ℕ :=
  (chunks.map sumCount).foldr combineSC (0, 0)

/-- Finalize a (sum, count) accumulator into a mean. -/
def meanOfSC (p : ℚ × ℕ) : ℚ :=
  p.1 / p.2

/-- Combine two partial minima. -/
def combineMinO : Option ℚ → Option ℚ → Option ℚ
  | none, b => b
  | a, none => a
  | some x, some y => some (min x y)

/-- Combine two partial maxima. -/
def combineMaxO : Option ℚ → Option ℚ → Option ℚ
  | none, b => b
  | a, none => a
  | some x, some y => some (max x y)

/-- Accumulate the per-chunk minima of a partitioned dataset. -/
def accumMin (chunks : List (List ℚ)) : Option ℚ :=
  (chunks.map listMin).foldr combineMinO none

/-- Accumulate the per-chunk maxima of a partitioned dataset. -/
def accumMax (chunks : List (List ℚ)) : Option ℚ :=
  (chunks.map listMax).foldr combineMaxO none

lemma join_map_map {α β : Type} (g : α → β) (L : List (List α)) :
    (L.map (List.map g)).flatten = L.flatten.map g := by
  induction L with
  | nil => rfl
  | cons c cs ih =>
    simp only [List.map_cons, List.flatten_cons, List.map_append, ih]

lemma accumSC_eq (chunks : List (List ℚ)) :
    accumSC chunks = (chunks.flatten.sum, chunks.flatten.length) := by
  induction chunks with
  | nil => rfl
  | cons c cs ih =>
    show combineSC (sumCount c) (accumSC cs) = _
    rw [ih]
    simp only [combineSC, sumCount, List.flatten_cons, List.sum_append,
      List.length_append]

lemma foldrSC_perm (l l' : List (ℚ × ℕ)) (h : l.Perm l') :
    l.foldr combineSC (0, 0) = l'.foldr combineSC (0, 0) := by
  induction h with
  | nil => rfl
  | cons x _ ih => simp only [List.foldr_cons, ih]
  | swap x y l =>
    simp only [List.foldr_cons, combineSC, Prod.mk.injEq]
    constructor <;> ring
  | trans _ _ ih1 ih2 => exact ih1.trans ih2

lemma combineMinO_assoc (a b c : Option ℚ) :
    combineMinO (combineMinO a b) c = combineMinO a (combineMinO b c) := by
  cases a <;> cases b <;> cases c <;> simp [combineMinO, min_assoc]

lemma combineMinO_comm (a b : Option ℚ) :
    combineMinO a b = combineMinO b a := by
  cases a <;> cases b <;> simp [combineMinO, min_comm]

lemma combineMaxO_assoc (a b c : Option ℚ) :
    combineMaxO (combineMaxO a b) c = combineMaxO a (combineMaxO b c) := by
  cases a <;> cases b <;> cases c <;> simp [combineMaxO, max_assoc]

lemma combineMaxO_comm (a b : Option ℚ) :
    combineMaxO a b = combineMaxO b a := by
  cases a <;> cases b <;> simp [combineMaxO, max_comm]

lemma listMin_cons (x : ℚ) (xs : List ℚ) :
    listMin (x :: xs) = combineMinO (some x) (listMin xs) := by
  cases h : listMin xs <;> simp [listMin, combineMinO, h]

lemma listMax_cons (x : ℚ) (xs : List ℚ) :
    listMax (x :: xs) = combineMaxO (some x) (listMax xs) := by
  cases h : listMax xs <;> simp [listMax, combineMaxO, h]

lemma listMin_append (a b : List ℚ) :
    listMin (a ++ b) = combineMinO (listMin a) (listMin b) := by
  induction a with
  | nil => simp [listMin, combineMinO]
  | cons x xs ih =>
    rw [List.cons_append, listMin_cons, ih, listMin_cons, combineMinO_assoc]

lemma listMax_append (a b : List ℚ) :
    listMax (a ++ b) = combineMaxO (listMax a) (listMax b) := by
  induction a with
  | nil => simp [listMax, combineMaxO]
  | cons x xs ih =>
    rw [List.cons_append, listMax_cons, ih, listMax_cons, combineMaxO_assoc]

lemma accumMin_eq (chunks : List (List ℚ)) :
    accumMin chunks = listMin chunks.flatten := by
  induction chunks with
  | nil => rfl
  | cons c cs ih =>
    show combineMinO (listMin c) (accumMin cs) = _
    rw [ih, ← listMin_append, List.flatten_cons]

lemma accumMax_eq (chunks : List (List ℚ)) :
    accumMax chunks = listMax chunks.flatten := by
  induction chunks with
  | nil => rfl
  | cons c cs ih =>
    show combineMaxO (listMax c) (accumMax cs) = _
    rw [ih, ← listMax_append, List.flatten_cons]

lemma foldrMinO_perm (l l' : List (Option ℚ)) (h : l.Perm l') :
    l.foldr combineMinO none = l'.foldr combineMinO none := by
  induction h with
  | nil => rfl
  | cons x _ ih => simp only [List.foldr_cons, ih]
  | swap x y l =>
    simp only [List.foldr_cons]
    rw [← combineMinO_assoc, ← combineMinO_assoc, combineMinO_comm y x]
  | trans _ _ ih1 ih2 => exact ih1.trans ih2

lemma foldrMaxO_perm (l l' : List (Option ℚ)) (h : l.Perm l') :
    l.foldr combineMaxO none = l'.foldr combineMaxO none := by
  induction h with
  | nil => rfl
  | cons x _ ih => simp only [List.foldr_cons, ih]
  | swap x y l =>
    simp only [List.foldr_cons]
    rw [← combineMaxO_assoc, ← combineMaxO_assoc, combineMaxO_comm y x]
  | trans _ _ ih1 ih2 => exact ih1.trans ih2

/-- Per-chunk (sum, sum of squares, count) accumulator state of a chunked
variance reduction. -/
def sumSqCount (xs : List ℚ) : ℚ × ℚ × ℕ :=
  (xs.sum, (xs.map (fun x => x ^ 2)).sum, xs.length)

/-- Combine two partial (sum, sum of squares, count) accumulators. -/
def combineSSC (a b : ℚ × ℚ × ℕ) : ℚ × ℚ × ℕ :=
  (a.1 + b.1, a.2.1 + b.2.1, a.2.2 + b.2.2)

/-- Accumulate the per-chunk (sum, sum of squares, count) triples of a
partitioned sample. -/
def accumSSC (chunks : List (List ℚ)) : ℚ × ℚ × ℕ :=
  (chunks.map sumSqCount).foldr combineSSC (0, 0, 0)

/-- Finalize a (sum, sum of squares, count) accumulator into a population
variance. -/
def varOfSSC (p : ℚ × ℚ × ℕ) : ℚ :=
  p.2.1 / p.2.2 - (p.1 / p.2.2) ^ 2

/-- The values `g 0, …, g (n-1)` as a list, the flat form of one level of
the decomposition sample. -/
def valuesOf (n : ℕ) (g : ℕ → ℚ) : List ℚ :=
  (List.range n).map g

/-- All cells of a shaped sample, flattened in index order. -/
def cellsOf : List ℕ → (List ℕ → ℚ) → List ℚ
  | [], f => [f []]
  | n :: ns, f =>
    ((List.range n).map (fun i => cellsOf ns (fun ix => f (i :: ix)))).flatten

lemma flatten_sum (L : List (List ℚ)) :
    L.flatten.sum = (L.map List.sum).sum := by
  induction L with
  | nil => rfl
  | cons c cs ih =>
    simp only [List.flatten_cons, List.sum_append, List.map_cons, List.sum_cons, ih]

lemma flatten_length {α : Type} (L : List (List α)) :
    L.flatten.length = (L.map List.length).sum := by
  induction L with
  | nil => rfl
  | cons c cs ih =>
    simp only [List.flatten_cons, List.length_append, List.map_cons, List.sum_cons, ih]

lemma sum_const_range (n c : ℕ) :
    ((List.range n).map (fun _ => c)).sum = n * c := by
  induction n with
  | zero => simp
  | succ n ih =>
    rw [List.range_succ, List.map_append, List.sum_append, ih]
    simp
    ring

lemma shape_prod_ne_zero (s : List ℕ) (hs : ∀ n ∈ s, n ≠ 0) : s.prod ≠ 0 := by
  induction s with
  | nil => simp
  | cons n ns ih =>
    rw [List.prod_cons]
    exact Nat.mul_ne_zero (hs n (List.mem_cons_self n ns))
      (ih fun m hm => hs m (List.mem_cons_of_mem n hm))

lemma sumSqCount_perm (xs ys : List ℚ) (h : xs.Perm ys) :
    sumSqCount xs = sumSqCount ys := by
  unfold sumSqCount
  rw [h.sum_eq, (h.map (fun x => x ^ 2)).sum_eq, h.length_eq]

lemma accumSSC_eq (chunks : List (List ℚ)) :
    accumSSC chunks = sumSqCount chunks.flatten := by
  induction chunks with
  | nil => rfl
  | cons c cs ih =>
    show combineSSC (sumSqCount c) (accumSSC cs) = _
    rw [ih]
    simp only [combineSSC, sumSqCount, List.flatten_cons, List.sum_append,
      List.map_append, List.length_append]

lemma cellsOf_map_sq (s : List ℕ) :
    ∀ f : List ℕ → ℚ,
      (cellsOf s f).map (fun x => x ^ 2) = cellsOf s (fun ix => f ix ^ 2) := by
  induction s with
  | nil => intro f; rfl
  | cons n ns ih =>
    intro f
    show (((List.range n).map fun i => cellsOf ns fun ix => f (i :: ix)).flatten).map _
      = ((List.range n).map fun i => cellsOf ns fun ix => f (i :: ix) ^ 2).flatten
    rw [← join_map_map, List.map_map]
    have h1 : (List.map (fun x => x ^ 2) ∘ fun i => cellsOf ns fun ix => f (i :: ix))
        = fun i => cellsOf ns fun ix => f (i :: ix) ^ 2 := by
      funext i
      exact ih (fun ix => f (i :: ix))
    rw [h1]

lemma cellsOf_sum (s : List ℕ) :
    ∀ f : List ℕ → ℚ, (∀ n ∈ s, n ≠ 0) →
      (cellsOf s f).sum = (s.prod : ℚ) * meanAll s f := by
  induction s with
  | nil =>
    intro f _
    simp [cellsOf, meanAll]
  | cons n ns ih =>
    intro f hs
    have hn : n ≠ 0 := hs n (List.mem_cons_self n ns)
    have hns : ∀ m ∈ ns, m ≠ 0 := fun m hm => hs m (List.mem_cons_of_mem n hm)
    show (((List.range n).map fun i => cellsOf ns fun ix => f (i :: ix)).flatten).sum
      = ((n :: ns).prod : ℚ) * meanAll (n :: ns) f
    rw [flatten_sum, List.map_map]
    have h1 : (List.sum ∘ fun i => cellsOf ns fun ix => f (i :: ix))
        = fun i => (ns.prod : ℚ) * meanAll ns (fun ix => f (i :: ix)) := by
      funext i
      exact ih (fun ix => f (i :: ix)) hns
    have hsum : (∑ i ∈ Finset.range n, meanAll ns (fun ix => f (i :: ix)))
        = (n : ℚ) * meanAll (n :: ns) f := by
      have h2 : meanAll (n :: ns) f
          = (∑ i ∈ Finset.range n, meanAll ns (fun ix => f (i :: ix))) / (n : ℚ) := rfl
      rw [h2, mul_comm]
      exact (div_mul_cancel₀ _ (Nat.cast_ne_zero.mpr hn)).symm
    rw [h1, sum_map_range (fun i => (ns.prod : ℚ) * meanAll ns fun ix => f (i :: ix)) n,
      ← Finset.mul_sum, hsum, List.prod_cons, Nat.cast_mul]
    ring

lemma cellsOf_length (s : List ℕ) :
    ∀ f : List ℕ → ℚ, (cellsOf s f).length = s.prod := by
  induction s with
  | nil => intro f; rfl
  | cons n ns ih =>
    intro f
    show (((List.range n).map fun i => cellsOf ns fun ix => f (i :: ix)).flatten).length
      = (n :: ns).prod
    rw [flatten_length, List.map_map]
    have h1 : (List.length ∘ fun i => cellsOf ns fun ix => f (i :: ix))
        = fun _ : ℕ => ns.prod := by
      funext i
      exact ih (fun ix => f (i :: ix))
    rw [h1, sum_const_range, List.prod_cons]

lemma varOfSSC_popVarF (n : ℕ) (hn : n ≠ 0) (g : ℕ → ℚ) :
    varOfSSC (sumSqCount (valuesOf n g)) = popVarF n g := by
  show ((valuesOf n g).map (fun x => x ^ 2)).sum / ((valuesOf n g).length : ℚ)
      - ((valuesOf n g).sum / ((valuesOf n g).length : ℚ)) ^ 2 = popVarF n g
  unfold valuesOf
  rw [List.map_map]
  have h1 : ((fun x => x ^ 2) ∘ g) = fun i => g i ^ 2 := rfl
  rw [h1, sum_map_range, sum_map_range, List.length_map, List.length_range,
    popVarF_eq n hn]
  rfl

/-- Chunked variance accumulation recovers the total variance of the
decomposition: any partitioning (and reordering) of the sample's cells,
accumulated per chunk as (sum, sum of squares, count) and combined, yields
exactly `totalVar`. -/
lemma totalVar_from_chunks (s : List ℕ) (hs : ∀ n ∈ s, n ≠ 0) (f : List ℕ → ℚ)
    (chunks : List (List ℚ)) (hflat : chunks.flatten.Perm (cellsOf s f)) :
    varOfSSC (accumSSC chunks) = totalVar s f := by
  rw [accumSSC_eq, sumSqCount_perm _ _ hflat]
  show ((cellsOf s f).map (fun x => x ^ 2)).sum / ((cellsOf s f).length : ℚ)
      - ((cellsOf s f).sum / ((cellsOf s f).length : ℚ)) ^ 2 = totalVar s f
  have hp : (s.prod : ℚ) ≠ 0 := Nat.cast_ne_zero.mpr (shape_prod_ne_zero s hs)
  rw [cellsOf_map_sq s f, cellsOf_sum s f hs, cellsOf_sum s (fun ix => f ix ^ 2) hs,
    cellsOf_length s f, mul_div_cancel_left₀ _ hp, mul_div_cancel_left₀ _ hp,
    ← totalVar_eq s hs f]

/-- Chunked variance accumulation recovers the outermost decomposition
component: any partitioning (and reordering) of the outer group means,
accumulated per chunk and combined, yields exactly `component 0`. -/
lemma component0_from_chunks (n : ℕ) (hn : n ≠ 0) (ns : List ℕ) (f : List ℕ → ℚ)
    (chunks : List (List ℚ))
    (hflat : chunks.flatten.Perm
      (valuesOf n (fun i => meanAll ns (fun ix => f (i :: ix))))) :
    varOfSSC (accumSSC chunks) = component 0 (n :: ns) f := by
  rw [accumSSC_eq, sumSqCount_perm _ _ hflat, varOfSSC_popVarF n hn]
  rfl

/-- Chunked (sum, count) accumulation recovers any mean-type level of the
decomposition (deeper components and residuals are means over the outer
groups of per-group results). -/
lemma meanF_from_chunks (n : ℕ) (g : ℕ → ℚ) (chunks : List (List ℚ))
    (hflat : chunks.flatten.Perm (valuesOf n g)) :
    meanOfSC (accumSC chunks) = meanF n g := by
  rw [accumSC_eq]
  show chunks.flatten.sum / (chunks.flatten.length : ℚ) = meanF n g
  rw [hflat.sum_eq, hflat.length_eq]
  unfold valuesOf
  rw [sum_map_range, List.length_map, List.length_range]
  rfl

/-- Claim C5: partitioned evaluation agrees with single-partition
evaluation.  Elementwise model execution distributes over any chunking of
the data; the (sum, count) accumulation of the mean, and the min and max
accumulations of `ensemble_stats`, recover exactly the single-partition
reductions and are invariant under any reordering of the chunks
(associative/commutative accumulation); per-cell statistic evaluation
distributes over any chunking of the cells; and the `decompose` reduction
is likewise chunk-independent — accumulating any partitioning and
reordering of the sample's cells recovers `totalVar`, of the outer group
means recovers `component 0`, of per-group level-`k` components recovers
`component (k+1)`, and of per-group residuals recovers `residualVar`,
while `varDecompose` itself distributes elementwise over any chunking of
the non-ensemble cells. -/
theorem chunked_evaluation_eq (f : ℚ → ℚ) (chunks chunks' : List (List ℚ))
    (hperm : chunks.Perm chunks') :
    (chunks.map (runModel f)).flatten = runModel f chunks.flatten
    ∧ accumSC chunks = (chunks.flatten.sum, chunks.flatten.length)
    ∧ accumSC chunks' = accumSC chunks
    ∧ meanOfSC (accumSC chunks) = statOf "mean" chunks.flatten
    ∧ accumMin chunks = listMin chunks.flatten
    ∧ accumMin chunks' = accumMin chunks
    ∧ accumMax chunks = listMax chunks.flatten
    ∧ accumMax chunks' = accumMax chunks
    ∧ (∀ (cellChunks : List (List (List ℚ))) (stat : String),
        (cellChunks.map (List.map (statOf stat))).flatten
          = cellChunks.flatten.map (statOf stat))
    ∧ (∀ (s : List ℕ) (g : List ℕ → ℚ) (varChunks : List (List ℚ)),
        (∀ n ∈ s, n ≠ 0) → varChunks.flatten.Perm (cellsOf s g) →
        varOfSSC (accumSSC varChunks) = totalVar s g)
    ∧ (∀ (n : ℕ) (ns : List ℕ) (g : List ℕ → ℚ) (varChunks : List (List ℚ)),
        n ≠ 0 →
        varChunks.flatten.Perm
          (valuesOf n (fun i => meanAll ns (fun ix => g (i :: ix)))) →
        varOfSSC (accumSSC varChunks) = component 0 (n :: ns) g)
    ∧ (∀ (k n : ℕ) (ns : List ℕ) (g : List ℕ → ℚ) (scChunks : List (List ℚ)),
        scChunks.flatten.Perm
          (valuesOf n (fun i => component k ns (fun ix => g (i :: ix)))) →
        meanOfSC (accumSC scChunks) = component (k + 1) (n :: ns) g)
    ∧ (∀ (j n : ℕ) (ns : List ℕ) (g : List ℕ → ℚ) (scChunks : List (List ℚ)),
        scChunks.flatten.Perm
          (valuesOf n (fun i => residualVar j ns (fun ix => g (i :: ix)))) →
        meanOfSC (accumSC scChunks) = residualVar (j + 1) (n :: ns) g)
    ∧ ∀ (dims : List String) (sh : List ℕ)
        (cellChunks : List (List (List ℕ → ℚ))),
        (cellChunks.map (List.map (fun cell => varDecompose dims sh cell))).flatten
          = cellChunks.flatten.map (fun cell => varDecompose dims sh cell) := by
  refine ⟨?_, accumSC_eq chunks, ?_, ?_, accumMin_eq chunks, ?_, accumMax_eq chunks,
    ?_, ?_, ?_, ?_, ?_, ?_, ?_⟩
  · show (chunks.map (List.map f)).flatten = (chunks.flatten).map f
    exact join_map_map f chunks
  · exact foldrSC_perm _ _ (hperm.map sumCount).symm
  · rw [accumSC_eq chunks]
    simp [meanOfSC, statOf]
  · exact foldrMinO_perm _ _ (hperm.map listMin).symm
  · exact foldrMaxO_perm _ _ (hperm.map listMax).symm
  · intro cellChunks stat
    exact join_map_map (statOf stat) cellChunks
  · intro s g varChunks hs hflat
    exact totalVar_from_chunks s hs g varChunks hflat
  · intro n ns g varChunks hn hflat
    exact component0_from_chunks n hn ns g varChunks hflat
  · intro k n ns g scChunks hflat
    exact meanF_from_chunks n _ scChunks hflat
  · intro j n ns g scChunks hflat
    exact meanF_from_chunks n _ scChunks hflat
  · intro dims sh cellChunks
    exact join_map_map (fun cell => varDecompose dims sh cell) cellChunks

theorem chunked_evaluation_eq_witness :
    (List.Perm [[(1 : ℚ)], [2, 3]] [[2, 3], [1]]
      ∧ accumSC [[(2 : ℚ), 3], [1]] = accumSC [[(1 : ℚ)], [2, 3]])
      ∧ varOfSSC (accumSSC [[(3 : ℚ), 1], [5, 9]]) = totalVar [2, 2] exSample := by
  constructor
  · exact ⟨List.Perm.swap _ _ _,
      (chunked_evaluation_eq (fun x => x) [[1], [2, 3]] [[2, 3], [1]]
        (List.Perm.swap _ _ _)).2.2.1⟩
  · have hcells : cellsOf [2, 2] exSample = [1, 3, 5, 9] := rfl
    have hflat : ([[(3 : ℚ), 1], [5, 9]] : List (List ℚ)).flatten.Perm
        (cellsOf [2, 2] exSample) := by
      rw [hcells]
      exact List.Perm.swap 1 3 [5, 9]
    exact (chunked_evaluation_eq (fun x => x) [[1], [2, 3]] [[2, 3], [1]]
      (List.Perm.swap _ _ _)).2.2.2.2.2.2.2.2.2.1 [2, 2] exSample [[3, 1], [5, 9]]
      (by decide) hflat

end Climepi
